import Mathlib

/-!
Verification of the `pybtree` repository (`btree.py`): a shallow embedding of
the `BNode` / `BTree` classes and proofs about the repository's claims.

Modelling conventions:
* Python lists become Lean `List`s; in-place mutation becomes explicit state
  passing (a method that mutates `self` returns the new node).
* Python exceptions become an error type `Err`.  `BTreeException("Item not in
  tree.")` is `Err.itemNotInTree`; the two validation errors are
  `Err.sizeValidationError` / `Err.orderValidationError`.  Reading `ind + 1`
  after a `for` loop over an empty list (as `find_by_key` does when
  `self.items == []`) raises `NameError`/`UnboundLocalError` in Python, modelled
  as `Err.nameError`; out-of-range list indexing/popping is `Err.indexError`.
* `BNode.delete` propagates exceptions while the receiver may already have been
  partially mutated, so it returns `BNode α × Except Err Bool`: the node state
  at the moment of return together with the result (the underflow flag) or the
  exception.  On the unreachable `indexError` paths inside nested `merge` /
  `insert` helper calls the in-place partial mutation of a popped-out child is
  not tracked (those helpers return a bare `Except`); no theorem below depends
  on those paths.
* Python 2 integer division `a / b` on nonnegative ints is `Nat` division.
* `list.sort(key=...)` is a stable sort by key; it is embedded as a stable
  insertion sort (`sortB` below, the `Bool`-comparator form of Mathlib's
  `List.insertionSort`, which is checked stable there).  Any two stable sorts
  under the same total-preorder comparator agree, so this choice is faithful
  to CPython's stable `list.sort`; it is also structurally recursive, hence
  kernel-evaluable on concrete inputs.
-/

namespace PyBTree

/-- Runtime errors of `btree.py`, see the module docstring for the mapping. -/
inductive Err : Type where
  | itemNotInTree : Err
  | nameError : Err
  | indexError : Err
  | sizeValidationError : Err
  | orderValidationError : Err
deriving DecidableEq, Repr

/-- `class BNode`: a node holds `items` and `children` (btree.py lines 7-10). -/
inductive BNode (α : Type) : Type where
  | mk (items : List α) (children : List (BNode α)) : BNode α

/-- Field accessor for `self.items`. -/
def BNode.items {α : Type} : BNode α → List α
  | .mk i _ => i

/-- Field accessor for `self.children`. -/
def BNode.children {α : Type} : BNode α → List (BNode α)
  | .mk _ c => c

variable {α : Type} {κ : Type} [LinearOrder κ]

/-- The `for ind, myitem in enumerate(self.items)` loop of `find_by_key`
(btree.py lines 18-24), together with the fall-through `child_ind = ind + 1`
(lines 25-26): when the loop ends without a break after a nonempty traversal,
the running index equals `len(items)`, i.e. the last `ind` plus one. -/
def findLoop (keyfunc : α → κ) (key : κ) (selfcheck : Bool) : Nat → List α → Bool × Nat
  | ind, [] => (false, ind)
  | ind, myitem :: rest =>
    let mykey := keyfunc myitem
    if selfcheck && decide (mykey = key) then (true, ind)
    else if decide (key < mykey) then (false, ind)
    else findLoop keyfunc key selfcheck (ind + 1) rest

/-- `BNode.find_by_key` (btree.py lines 12-27).  With `self.items == []` the
loop body never runs and the trailing `ind + 1` raises `NameError`. -/
def BNode.find_by_key (keyfunc : α → κ) (key : κ) (selfcheck : Bool) :
    BNode α → Except Err (Bool × Nat)
  | .mk items _ =>
    match items with
    | [] => .error .nameError
    | _ :: _ => .ok (findLoop keyfunc key selfcheck 0 items)

/-- `BNode.pop_median` (btree.py lines 144-147): `self.items.pop(midpoint)`
returning the popped item and the remaining list; popping from an empty list
raises `IndexError`. -/
def pop_median (items : List α) : Except Err (α × List α) :=
  let size := items.length
  let midpoint := if size % 2 ≠ 0 then size / 2 else (size - 1) / 2
  match items[midpoint]? with
  | none => .error .indexError
  | some x => .ok (x, items.eraseIdx midpoint)

/-- One step of the stable insertion sort: place `a` before the first element
`b` of the (already sorted) list with `le a b`; an element equal to `a` under
the comparator therefore stays before `a` only if it is not reached first,
matching `List.orderedInsert` of Mathlib with a `Bool` comparator. -/
def insLoop (le : α → α → Bool) (a : α) : List α → List α
  | [] => [a]
  | b :: l => if le a b then a :: b :: l else b :: insLoop le a l

/-- Stable insertion sort with a `Bool` comparator (`List.insertionSort` of
Mathlib, executably): later elements are inserted first, so an earlier element
is placed in front of the equal ones that followed it. -/
def sortB (le : α → α → Bool) : List α → List α
  | [] => []
  | b :: l => insLoop le b (sortB le l)

/-- `BNode.add_item` (btree.py lines 139-141): append then stable sort by key. -/
def add_item (keyfunc : α → κ) (items : List α) (item : α) : List α :=
  sortB (fun a b => decide (keyfunc a ≤ keyfunc b)) (items ++ [item])

/-- `BNode.insert_here` (btree.py lines 120-125). -/
def BNode.insert_here (keyfunc : α → κ) (maxcount : Nat) :
    BNode α → α → Except Err (BNode α × Option α)
  | .mk items children, item =>
    let items2 := add_item keyfunc items item
    if items2.length > maxcount then
      match pop_median items2 with
      | .error e => .error e
      | .ok (med, items3) => .ok (.mk items3 children, some med)
    else .ok (.mk items2 children, none)

/-- `BNode.split` (btree.py lines 127-137): returns `[self, newnode]`. -/
def BNode.split : BNode α → List (BNode α)
  | .mk items children =>
    let size := items.length
    let numkids := size + 2
    [.mk (items.take (size / 2)) (children.take (numkids / 2)),
     .mk (items.drop (size / 2)) (children.drop (numkids / 2))]

/-- `BNode.merge` (btree.py lines 29-45).  The receiver absorbs its right
neighbour; the result is the new receiver state plus the optional bubble. -/
def BNode.merge (keyfunc : α → κ) (maxcount : Nat) :
    BNode α → BNode α → Except Err (BNode α × Option α)
  | .mk sitems [], .mk oitems _ =>
    let items2 := sitems ++ oitems
    if items2.length > maxcount then
      match pop_median items2 with
      | .error e => .error e
      | .ok (med, items3) => .ok (.mk items3 [], some med)
    else .ok (.mk items2 [], none)
  | .mk sitems (s0 :: ss), .mk oitems ochildren =>
    let items2 := sitems ++ oitems
    let l_children := (s0 :: ss).dropLast
    let l_child := (s0 :: ss).getLast (by simp)
    match ochildren with
    | [] => .error .indexError
    | r_child :: r_children =>
      match BNode.merge keyfunc maxcount l_child r_child with
      | .error e => .error e
      | .ok (l_child2, none) =>
        if items2.length > maxcount then
          match pop_median items2 with
          | .error e => .error e
          | .ok (med, items3) =>
            .ok (.mk items3 (l_children ++ [l_child2] ++ r_children), some med)
        else .ok (.mk items2 (l_children ++ [l_child2] ++ r_children), none)
      | .ok (l_child2, some b) =>
        BNode.insert_here keyfunc maxcount
          (.mk items2 (l_children ++ l_child2.split ++ r_children)) b
termination_by n _ => sizeOf n
decreasing_by
  have hmem : (s0 :: ss).getLast (by simp) ∈ s0 :: ss := List.getLast_mem _
  have h1 : sizeOf ((s0 :: ss).getLast (by simp)) < sizeOf (s0 :: ss) :=
    List.sizeOf_lt_of_mem hmem
  simp only [BNode.mk.sizeOf_spec]
  omega

/-- `BNode.insert` (btree.py lines 108-118). -/
def BNode.insert (keyfunc : α → κ) (maxcount : Nat) :
    BNode α → α → Except Err (BNode α × Option α)
  | .mk items [], item => BNode.insert_here keyfunc maxcount (.mk items []) item
  | .mk items (c0 :: cs), item =>
    match BNode.find_by_key keyfunc (keyfunc item) false (.mk items (c0 :: cs)) with
    | .error e => .error e
    | .ok (_, child_ind) =>
      match h : (c0 :: cs)[child_ind]? with
      | none => .error .indexError
      | some child =>
        match BNode.insert keyfunc maxcount child item with
        | .error e => .error e
        | .ok (child2, none) => .ok (.mk items ((c0 :: cs).set child_ind child2), none)
        | .ok (child2, some b) =>
          BNode.insert_here keyfunc maxcount
            (.mk items ((c0 :: cs).take child_ind ++ child2.split ++ (c0 :: cs).drop (child_ind + 1))) b
termination_by n _ => sizeOf n
decreasing_by
  have hmem : child ∈ c0 :: cs := by
    have := List.getElem?_eq_some_iff.mp h
    obtain ⟨hlt, hget⟩ := this
    exact hget ▸ List.getElem_mem hlt
  have h1 : sizeOf child < sizeOf (c0 :: cs) := List.sizeOf_lt_of_mem hmem
  simp only [BNode.mk.sizeOf_spec]
  omega

/-- `BNode.delete` (btree.py lines 47-106).  Because Python exceptions leave
already-performed in-place mutations behind, the result pairs the node state at
the moment of return with either the underflow flag or the exception. -/
def BNode.delete (keyfunc : α → κ) (mincount maxcount : Nat) :
    BNode α → κ → BNode α × Except Err Bool
  | n@(.mk items children), key =>
    match BNode.find_by_key keyfunc key true n with
    | .error e => (n, .error e)
    | .ok (here, ind) =>
      if children.isEmpty then
        -- leaf case, lines 52-57
        if here then
          let items2 := items.eraseIdx ind
          (.mk items2 children, .ok (decide (items2.length < mincount)))
        else (n, .error .itemNotInTree)
      else
        -- lines 58-68: slice the child list and pop the sibling pair from the
        -- local slices; `pop` from an empty (local) list raises IndexError
        -- before any field of `self` has been touched.
        let l_children := children.take ind
        let r_children := children.drop ind
        match
          (if r_children.length = 1 then
            match l_children.getLast?, r_children with
            | some lc, dc :: _ =>
              Except.ok (l_children.dropLast, ([] : List (BNode α)), lc, dc, ind - 1)
            | _, _ => Except.error Err.indexError
          else
            match r_children with
            | a :: b :: rest => Except.ok (l_children, rest, a, b, ind)
            | _ => Except.error Err.indexError) with
        | .error e => (n, .error e)
        | .ok (l_chs, r_chs, l_child, deadchild, item_ind) =>
          if here then
            -- lines 70-79
            let items2 := items.eraseIdx ind
            match BNode.merge keyfunc maxcount l_child deadchild with
            | .error e => (.mk items2 children, .error e)
            | .ok (merged, some b) =>
              match BNode.insert_here keyfunc maxcount
                  (.mk items2 (l_chs ++ merged.split ++ r_chs)) b with
              | .error e => (.mk items2 (l_chs ++ merged.split ++ r_chs), .error e)
              | .ok (n2, _) => (n2, .ok false)
            | .ok (merged, none) =>
              (.mk items2 (l_chs ++ [merged] ++ r_chs),
               .ok (decide (items2.length < mincount)))
          else
            -- lines 80-106; `exp_child` is `self.children[ind]`, and the popped
            -- `l_child`/`deadchild` that coincides with it aliases it, so after
            -- the recursive call the merge pair uses the updated child.
            match h : children[ind]? with
            | none => (n, .error .indexError)
            | some exp_child =>
              match BNode.delete keyfunc mincount maxcount exp_child key with
              | (child2, .error e) => (.mk items (children.set ind child2), .error e)
              | (child2, .ok underflow) =>
                if underflow then
                  let mpair :=
                    if r_children.length = 1 then (l_child, child2) else (child2, deadchild)
                  match BNode.merge keyfunc maxcount mpair.1 mpair.2 with
                  | .error e => (.mk items (children.set ind child2), .error e)
                  | .ok (merged, some b) =>
                    -- lines 86-93
                    let children2 := l_chs ++ merged.split ++ r_chs
                    match items[item_ind]? with
                    | none => (.mk items children2, .error .indexError)
                    | some olditem =>
                      let items2 := items.set item_ind b
                      match BNode.insert keyfunc maxcount (.mk items2 children2) olditem with
                      | .error e => (.mk items2 children2, .error e)
                      | .ok (n2, _) => (n2, .ok false)
                  | .ok (merged, none) =>
                    -- lines 94-104
                    match items[item_ind]? with
                    | none => (.mk items (children.set ind child2), .error .indexError)
                    | some item =>
                      let items2 := items.eraseIdx item_ind
                      match BNode.insert keyfunc maxcount merged item with
                      | .error e => (.mk items2 (children.set ind child2), .error e)
                      | .ok (lchild2, none) =>
                        (.mk items2 (l_chs ++ [lchild2] ++ r_chs),
                         .ok (decide (items2.length < mincount)))
                      | .ok (lchild2, some b2) =>
                        match BNode.insert_here keyfunc maxcount
                            (.mk items2 (l_chs ++ lchild2.split ++ r_chs)) b2 with
                        | .error e =>
                          (.mk items2 (l_chs ++ lchild2.split ++ r_chs), .error e)
                        | .ok (n2, _) => (n2, .ok false)
                else (.mk items (children.set ind child2), .ok false)
termination_by n _ => sizeOf n
decreasing_by
  have hmem : exp_child ∈ children := by
    have := List.getElem?_eq_some_iff.mp h
    obtain ⟨hlt, hget⟩ := this
    exact hget ▸ List.getElem_mem hlt
  have h1 : sizeOf exp_child < sizeOf children := List.sizeOf_lt_of_mem hmem
  simp only [BNode.mk.sizeOf_spec]
  omega

mutual

/-- `BNode.__iter__` (btree.py lines 149-159), materialised as a list: leaf
yields `items`; internal node yields `children[0]` then alternates
`zip(items, children[1:])`. -/
def BNode.toList : BNode α → List α
  | .mk items [] => items
  | .mk items (c0 :: cs) => c0.toList ++ iterZip items cs

/-- The `for i, c in zip(self.items, self.children[1:])` part of `__iter__`;
`zip` truncates at the shorter list. -/
def iterZip : List α → List (BNode α) → List α
  | _, [] => []
  | [], _ :: _ => []
  | i :: is_, c :: cs => i :: (c.toList ++ iterZip is_ cs)

end

/-- `class BTree` (btree.py lines 161-170): root node, occupancy bounds and the
key function.  `minsize` is computed, not stored independently, but the Python
object carries it as an attribute, so the structure does too. -/
structure BTree (α κ : Type) where
  root : BNode α
  maxsize : Nat
  minsize : Nat
  keyfunc : α → κ

/-- `BTree.__init__` (btree.py lines 166-170): fresh empty root,
`minsize = maxsize / 2` (Python 2 floor division).  The constructor performs no
validation of the bounds and cannot fail. -/
def mkBTree (maxsize : Nat) (keyfunc : α → κ) : BTree α κ :=
  { root := .mk [] [], maxsize := maxsize, minsize := maxsize / 2, keyfunc := keyfunc }

/-- `BTree._mk_new_root` (btree.py lines 172-176). -/
def BTree._mk_new_root (t : BTree α κ) (item : α) : BTree α κ :=
  { t with root := .mk (add_item t.keyfunc [] item) t.root.split }

/-- `BTree.insert` (btree.py lines 184-187). -/
def BTree.insert (t : BTree α κ) (item : α) : Except Err (BTree α κ) :=
  match BNode.insert t.keyfunc t.maxsize t.root item with
  | .error e => .error e
  | .ok (root2, none) => .ok { t with root := root2 }
  | .ok (root2, some b) => .ok (BTree._mk_new_root { t with root := root2 } b)

/-- `BTree._delete` (btree.py lines 178-182): delegate to the root (ignoring
the underflow flag), then collapse an empty root onto its single child.  On an
exception the collapse step is skipped. -/
def BTree._delete (t : BTree α κ) (key : κ) : BTree α κ × Except Err Unit :=
  match BNode.delete t.keyfunc t.minsize t.maxsize t.root key with
  | (root2, .error e) => ({ t with root := root2 }, .error e)
  | (root2, .ok _) =>
    if root2.items.isEmpty then
      match root2.children with
      | [] => ({ t with root := root2 }, .ok ())
      | c :: _ => ({ t with root := c }, .ok ())
    else ({ t with root := root2 }, .ok ())

/-- `BTree.delete` (btree.py lines 189-190). -/
def BTree.delete (t : BTree α κ) (item : α) : BTree α κ × Except Err Unit :=
  BTree._delete t (t.keyfunc item)

/-- `BTree.delete_by_key` (btree.py lines 192-193). -/
def BTree.delete_by_key (t : BTree α κ) (key : κ) : BTree α κ × Except Err Unit :=
  BTree._delete t key

/-- `BTree.__iter__` (btree.py lines 195-196), materialised as a list. -/
def BTree.toList (t : BTree α κ) : List α :=
  t.root.toList

/-- `BTree._val_size` (btree.py lines 205-210): occupancy check; `ignoremin` is
passed only for the root, children are checked with the default `False`. -/
def _val_size (minsize maxsize : Nat) : BNode α → Bool → Bool
  | .mk items children, ignoremin =>
    let size := items.length
    if !ignoremin && decide (size < minsize) then false
    else
      decide (size ≤ maxsize) &&
      (decide (children.length = 0) || decide (children.length = size + 1)) &&
      children.attach.all (fun c => _val_size minsize maxsize c.1 false)
termination_by n _ => sizeOf n
decreasing_by
  have h1 : sizeOf c.1 < sizeOf children := List.sizeOf_lt_of_mem c.2
  simp only [BNode.mk.sizeOf_spec]
  omega

/-- The `isordered` lambda of `BTree._val_order` (btree.py line 213) together
with the initial `prev = None`: in Python 2 with the identity-style key
functions used by the repository, `None` compares below every value, so the
first comparison succeeds; the `Option` models the `None` start. -/
def isordered_chk (keyfunc : α → κ) : Option α → α → Bool
  | none, _ => true
  | some x, y => decide (keyfunc x ≤ keyfunc y)

/-- The `for i in self` loop of `BTree._val_order` (btree.py lines 214-219). -/
def _val_order_loop (keyfunc : α → κ) : Option α → List α → Bool
  | _, [] => true
  | prev, i :: rest => isordered_chk keyfunc prev i && _val_order_loop keyfunc (some i) rest

/-- `BTree._val_order` (btree.py lines 212-219). -/
def BTree._val_order (t : BTree α κ) : Bool :=
  _val_order_loop t.keyfunc none t.toList

/-- `BTree.validate` (btree.py lines 199-203). -/
def BTree.validate (t : BTree α κ) : Except Err Unit :=
  if !(_val_size t.minsize t.maxsize t.root true) then .error .sizeValidationError
  else if !(t._val_order) then .error .orderValidationError
  else .ok ()

/-- State-passing form of `validate`: the source of `validate` / `_val_size` /
`_val_order` contains no assignment to any node or tree attribute (it only
reads and iterates), so its state-passing translation returns the tree it was
given. -/
def BTree.validateRun (t : BTree α κ) : Except Err Unit × BTree α κ :=
  (t.validate, t)

/-- Every item stored anywhere in a node: its own `items` together with all
items of its descendants.  Unlike `BNode.toList` this does not depend on the
`zip` pairing of `__iter__`, so it captures "the key is absent from every
node's `items`" even for structurally damaged trees. -/
def BNode.allItems : BNode α → List α
  | .mk items children => items ++ children.attach.flatMap (fun c => c.1.allItems)
termination_by n => sizeOf n
decreasing_by
  have h1 := List.sizeOf_lt_of_mem c.2
  simp only [BNode.mk.sizeOf_spec]
  omega

/-- Fold `BTree.insert` over a list of items (the driver loop of test.py). -/
def insertAll (t : BTree α κ) (xs : List α) : Except Err (BTree α κ) :=
  xs.foldlM BTree.insert t

/-- A node with 3 items and 5 children (the post-`pop_median` state for an odd
item count), used to test the child split point of `BNode.split`. -/
def splitProbe : BNode Int :=
  .mk [1, 2, 3] (List.replicate 5 (.mk [] []))

/-- The tree obtained by inserting the items `(1, 10)` and `(1, 20)` (two
distinct items sharing the key `1`, extracted by `Prod.fst`) into
`mkBTree 4 Prod.fst`. -/
def dupKeyTree : BTree (Int × Int) Int :=
  { root := .mk [(1, 10), (1, 20)] [], maxsize := 4, minsize := 2, keyfunc := Prod.fst }

/-- A small leaf-only tree holding `1, 2, 3`, used when exercising a failed
deletion of an absent key. -/
def absentProbeTree : BTree Int Int :=
  { root := .mk [1, 2, 3] [], maxsize := 4, minsize := 2, keyfunc := id }

/-!
### Fuel-indexed structural mirrors

The recursive node operations above are defined by well-founded recursion, so
the kernel cannot evaluate them on concrete inputs (`decide` / `rfl` get stuck
on `WellFounded.fix`).  To evaluate the code on the concrete operation
sequences appearing in counterexamples, each recursive operation gets a
structurally recursive mirror taking a fuel argument and returning `none` when
the fuel runs out, with the body otherwise identical; a one-sided soundness
lemma shows that whenever a mirror returns `some r`, the original returns `r`,
so evaluating a mirror by `rfl` at a generous fuel evaluates the original.
-/

/-- Fuel-indexed mirror of the mutual `BNode.toList` / `iterZip` pair
(`Sum.inl` for `toList`, `Sum.inr` for `iterZip`). -/
def toListAux : Nat → BNode α ⊕ (List α × List (BNode α)) → Option (List α)
  | 0, _ => none
  | fuel + 1, .inl (.mk items children) =>
    match children with
    | [] => some items
    | c0 :: cs =>
      match toListAux fuel (.inl c0), toListAux fuel (.inr (items, cs)) with
      | some a, some b => some (a ++ b)
      | _, _ => none
  | _ + 1, .inr (_, []) => some []
  | _ + 1, .inr ([], _ :: _) => some []
  | fuel + 1, .inr (i :: is_, c :: cs) =>
    match toListAux fuel (.inl c), toListAux fuel (.inr (is_, cs)) with
    | some a, some b => some (i :: (a ++ b))
    | _, _ => none

/-- Mirror of `BNode.toList`. -/
def toListF (fuel : Nat) (n : BNode α) : Option (List α) :=
  toListAux fuel (.inl n)

/-- Fuel-indexed mirror of `BNode.merge`. -/
def mergeF (keyfunc : α → κ) (maxcount : Nat) :
    Nat → BNode α → BNode α → Option (Except Err (BNode α × Option α))
  | _, .mk sitems [], .mk oitems _ =>
    let items2 := sitems ++ oitems
    some (if items2.length > maxcount then
      match pop_median items2 with
      | .error e => .error e
      | .ok (med, items3) => .ok (.mk items3 [], some med)
    else .ok (.mk items2 [], none))
  | 0, .mk _ (_ :: _), _ => none
  | fuel + 1, .mk sitems (s0 :: ss), .mk oitems ochildren =>
    let items2 := sitems ++ oitems
    let l_children := (s0 :: ss).dropLast
    let l_child := (s0 :: ss).getLast (by simp)
    match ochildren with
    | [] => some (.error .indexError)
    | r_child :: r_children =>
      match mergeF keyfunc maxcount fuel l_child r_child with
      | none => none
      | some (.error e) => some (.error e)
      | some (.ok (l_child2, none)) =>
        some (if items2.length > maxcount then
          match pop_median items2 with
          | .error e => .error e
          | .ok (med, items3) =>
            .ok (.mk items3 (l_children ++ [l_child2] ++ r_children), some med)
        else .ok (.mk items2 (l_children ++ [l_child2] ++ r_children), none))
      | some (.ok (l_child2, some b)) =>
        some (BNode.insert_here keyfunc maxcount
          (.mk items2 (l_children ++ l_child2.split ++ r_children)) b)

/-- Fuel-indexed mirror of `BNode.insert`. -/
def insertF (keyfunc : α → κ) (maxcount : Nat) :
    Nat → BNode α → α → Option (Except Err (BNode α × Option α))
  | _, .mk items [], item => some (BNode.insert_here keyfunc maxcount (.mk items []) item)
  | 0, .mk _ (_ :: _), _ => none
  | fuel + 1, .mk items (c0 :: cs), item =>
    match BNode.find_by_key keyfunc (keyfunc item) false (.mk items (c0 :: cs)) with
    | .error e => some (.error e)
    | .ok (_, child_ind) =>
      match (c0 :: cs)[child_ind]? with
      | none => some (.error .indexError)
      | some child =>
        match insertF keyfunc maxcount fuel child item with
        | none => none
        | some (.error e) => some (.error e)
        | some (.ok (child2, none)) =>
          some (.ok (.mk items ((c0 :: cs).set child_ind child2), none))
        | some (.ok (child2, some b)) =>
          some (BNode.insert_here keyfunc maxcount
            (.mk items ((c0 :: cs).take child_ind ++ child2.split ++ (c0 :: cs).drop (child_ind + 1))) b)

/-- Fuel-indexed mirror of `BNode.delete`; the nested `merge` and `insert`
calls run their mirrors on the shared fuel. -/
def deleteF (keyfunc : α → κ) (mincount maxcount : Nat) :
    Nat → BNode α → κ → Option (BNode α × Except Err Bool)
  | 0, _, _ => none
  | fuel + 1, n@(.mk items children), key =>
    match BNode.find_by_key keyfunc key true n with
    | .error e => some (n, .error e)
    | .ok (here, ind) =>
      if children.isEmpty then
        if here then
          let items2 := items.eraseIdx ind
          some (.mk items2 children, .ok (decide (items2.length < mincount)))
        else some (n, .error .itemNotInTree)
      else
        let l_children := children.take ind
        let r_children := children.drop ind
        match
          (if r_children.length = 1 then
            match l_children.getLast?, r_children with
            | some lc, dc :: _ =>
              Except.ok (l_children.dropLast, ([] : List (BNode α)), lc, dc, ind - 1)
            | _, _ => Except.error Err.indexError
          else
            match r_children with
            | a :: b :: rest => Except.ok (l_children, rest, a, b, ind)
            | _ => Except.error Err.indexError) with
        | .error e => some (n, .error e)
        | .ok (l_chs, r_chs, l_child, deadchild, item_ind) =>
          if here then
            let items2 := items.eraseIdx ind
            match mergeF keyfunc maxcount fuel l_child deadchild with
            | none => none
            | some (.error e) => some (.mk items2 children, .error e)
            | some (.ok (merged, some b)) =>
              match BNode.insert_here keyfunc maxcount
                  (.mk items2 (l_chs ++ merged.split ++ r_chs)) b with
              | .error e => some (.mk items2 (l_chs ++ merged.split ++ r_chs), .error e)
              | .ok (n2, _) => some (n2, .ok false)
            | some (.ok (merged, none)) =>
              some (.mk items2 (l_chs ++ [merged] ++ r_chs),
                .ok (decide (items2.length < mincount)))
          else
            match children[ind]? with
            | none => some (n, .error .indexError)
            | some exp_child =>
              match deleteF keyfunc mincount maxcount fuel exp_child key with
              | none => none
              | some (child2, .error e) =>
                some (.mk items (children.set ind child2), .error e)
              | some (child2, .ok underflow) =>
                if underflow then
                  let mpair :=
                    if r_children.length = 1 then (l_child, child2) else (child2, deadchild)
                  match mergeF keyfunc maxcount fuel mpair.1 mpair.2 with
                  | none => none
                  | some (.error e) => some (.mk items (children.set ind child2), .error e)
                  | some (.ok (merged, some b)) =>
                    let children2 := l_chs ++ merged.split ++ r_chs
                    match items[item_ind]? with
                    | none => some (.mk items children2, .error .indexError)
                    | some olditem =>
                      let items2 := items.set item_ind b
                      match insertF keyfunc maxcount fuel (.mk items2 children2) olditem with
                      | none => none
                      | some (.error e) => some (.mk items2 children2, .error e)
                      | some (.ok (n2, _)) => some (n2, .ok false)
                  | some (.ok (merged, none)) =>
                    match items[item_ind]? with
                    | none => some (.mk items (children.set ind child2), .error .indexError)
                    | some item =>
                      let items2 := items.eraseIdx item_ind
                      match insertF keyfunc maxcount fuel merged item with
                      | none => none
                      | some (.error e) => some (.mk items2 (children.set ind child2), .error e)
                      | some (.ok (lchild2, none)) =>
                        some (.mk items2 (l_chs ++ [lchild2] ++ r_chs),
                          .ok (decide (items2.length < mincount)))
                      | some (.ok (lchild2, some b2)) =>
                        match BNode.insert_here keyfunc maxcount
                            (.mk items2 (l_chs ++ lchild2.split ++ r_chs)) b2 with
                        | .error e =>
                          some (.mk items2 (l_chs ++ lchild2.split ++ r_chs), .error e)
                        | .ok (n2, _) => some (n2, .ok false)
                else some (.mk items (children.set ind child2), .ok false)


/-- Fuel-indexed mirror of `BTree.insert`. -/
def insertTF (fuel : Nat) (t : BTree α κ) (item : α) : Option (Except Err (BTree α κ)) :=
  match insertF t.keyfunc t.maxsize fuel t.root item with
  | none => none
  | some (.error e) => some (.error e)
  | some (.ok (root2, none)) => some (.ok { t with root := root2 })
  | some (.ok (root2, some b)) => some (.ok (BTree._mk_new_root { t with root := root2 } b))

/-- Fuel-indexed mirror of `BTree._delete` (and hence of `delete_by_key`). -/
def deleteTF (fuel : Nat) (t : BTree α κ) (key : κ) : Option (BTree α κ × Except Err Unit) :=
  match deleteF t.keyfunc t.minsize t.maxsize fuel t.root key with
  | none => none
  | some (root2, .error e) => some ({ t with root := root2 }, .error e)
  | some (root2, .ok _) =>
    if root2.items.isEmpty then
      match root2.children with
      | [] => some ({ t with root := root2 }, .ok ())
      | c :: _ => some ({ t with root := c }, .ok ())
    else some ({ t with root := root2 }, .ok ())

/-- A driver run in the style of the `testiter` loop of test.py: each step
either inserts an item (`Sum.inl`) or deletes by key (`Sum.inr`), where a
delete is attempted only when the key is currently yielded by iteration.  The
run returns `none` as soon as any operation raises or a delete targets a key
not currently present, so a `some` result certifies that every operation
completed normally and that deletes only ever targeted keys present at the
time. -/
def applyOps [BEq κ] : BTree α κ → List (α ⊕ κ) → Option (BTree α κ)
  | t, [] => some t
  | t, .inl x :: rest =>
    match t.insert x with
    | .error _ => none
    | .ok t2 => applyOps t2 rest
  | t, .inr k :: rest =>
    if (t.toList.map t.keyfunc).contains k then
      match t.delete_by_key k with
      | (t2, .ok _) => applyOps t2 rest
      | (_, .error _) => none
    else none

/-- Fuel-indexed mirror of `applyOps` built on the fuelled operations. -/
def applyOpsF [BEq κ] (fuel : Nat) : BTree α κ → List (α ⊕ κ) → Option (BTree α κ)
  | t, [] => some t
  | t, .inl x :: rest =>
    match insertTF fuel t x with
    | none => none
    | some (.error _) => none
    | some (.ok t2) => applyOpsF fuel t2 rest
  | t, .inr k :: rest =>
    match toListF fuel t.root with
    | none => none
    | some l =>
      if (l.map t.keyfunc).contains k then
        match deleteTF fuel t k with
        | none => none
        | some (t2, .ok _) => applyOpsF fuel t2 rest
        | some (_, .error _) => none
      else none

/-- Fuel-indexed mirror of `insertAll`. -/
def insertAllF (fuel : Nat) : BTree α κ → List α → Option (Except Err (BTree α κ))
  | t, [] => some (.ok t)
  | t, x :: rest =>
    match insertTF fuel t x with
    | none => none
    | some (.error e) => some (.error e)
    | some (.ok t2) => insertAllF fuel t2 rest

/-- Fold `BTree.delete_by_key` over a list of keys, the deletion phase of the
`testiter` loop of test.py; the fold stops with `none` at the first delete
that raises. -/
def deleteAll : BTree α κ → List κ → Option (BTree α κ)
  | t, [] => some t
  | t, k :: rest =>
    match t.delete_by_key k with
    | (t2, .ok _) => deleteAll t2 rest
    | (_, .error _) => none

/-- Fuel-indexed mirror of `deleteAll`: the outer `Option` is the fuel
sentinel, the inner `Option` is the result of `deleteAll` itself. -/
def deleteAllF (fuel : Nat) : BTree α κ → List κ → Option (Option (BTree α κ))
  | t, [] => some (some t)
  | t, k :: rest =>
    match deleteTF fuel t k with
    | none => none
    | some (t2, .ok _) => deleteAllF fuel t2 rest
    | some (_, .error _) => some none

set_option maxHeartbeats 1600000 in
/-- The minimised 92-operation driver sequence exhibiting the iteration-order
violation of C1 (inserts `Sum.inl`, deletes-by-key `Sum.inr`), run against
`mkBTree 4 (fun x => x)`. -/
def c1Ops : List (Int ⊕ Int) :=
  [.inl 0, .inl 0, .inl 2, .inl 2, .inl 2, .inl 2, .inl 2, .inl 2,
   .inl 2, .inl 0, .inl 2, .inl 0, .inl 2, .inl 0, .inl 2, .inl 2,
   .inl 2, .inl 2, .inr 0, .inr 0, .inr 0, .inr 0, .inr 0, .inl 9,
   .inr 2, .inr 2, .inl 0, .inl 9, .inr 0, .inl 9, .inr 2, .inl 1,
   .inl 1, .inr 2, .inl 0, .inr 2, .inl 1, .inl 1, .inr 0, .inr 1,
   .inl 1, .inr 1, .inr 1, .inl 0, .inl 1, .inl 3, .inl 2, .inl 1,
   .inl 2, .inl 1, .inl 0, .inr 0, .inr 1, .inl 9, .inl 9, .inl 9,
   .inr 0, .inr 1, .inr 1, .inl 0, .inl 1, .inl 1, .inl 1, .inl 1,
   .inl 1, .inr 0, .inl 1, .inl 1, .inl 0, .inl 0, .inl 1, .inl 0,
   .inl 0, .inl 0, .inl 0, .inr 1, .inl 1, .inl 1, .inr 0, .inr 0,
   .inl 1, .inr 1, .inl 1, .inl 1, .inr 1, .inl 0, .inr 0, .inr 0,
   .inr 0, .inr 0, .inr 0, .inr 2]

/-- The 25-operation driver sequence exhibiting the occupancy violation of C2
(21 inserts followed by 4 deletes), run against `mkBTree 4 (fun x => x)`. -/
def c2Ops : List (Int ⊕ Int) :=
  [.inl 2, .inl 0, .inl 2, .inl 2, .inl 0, .inl 2, .inl 2, .inl 2,
   .inl 2, .inl 2, .inl 2, .inl 2, .inl 0, .inl 2, .inl 0, .inl 2,
   .inl 0, .inl 2, .inl 2, .inl 2, .inl 2, .inr 0, .inr 0, .inr 0,
   .inr 0]

/-- The 21-item insertion order of the C7 round-trip counterexample. -/
def c7Inserts : List Int :=
  [2, 0, 2, 2, 0, 2, 2, 2, 2, 2, 2, 2, 0, 2, 0, 2, 0, 2, 2, 2, 2]

/-- A deletion order for exactly the multiset of `c7Inserts` (five 0s then
sixteen 2s). -/
def c7Deletes : List Int :=
  [0, 0, 0, 0, 0, 2, 2, 2, 2, 2, 2, 2, 2, 2, 2, 2, 2, 2, 2, 2, 2]


/-- The tree produced by running `c1Ops` against `mkBTree 4 (fun x => x)`
(computed through the fuelled mirrors; certified in the C1 theorem below). -/
def c1Final : BTree Int Int :=
  { root := .mk [2]
      [.mk [1, 1, 1] [.mk [1, 1] [], .mk [1, 1] [], .mk [1, 1] [], .mk [1, 1] []],
       .mk [2, 9, 9]
        [.mk [2, 2] [], .mk [2, 2, 2] [], .mk [2, 2, 3] [], .mk [9, 9] [], .mk [9, 9] []]],
    maxsize := 4, minsize := 2, keyfunc := fun x => x }

/-- The tree produced by running `c2Ops` against `mkBTree 4 (fun x => x)`
(computed through the fuelled mirrors; certified in the C2 theorem below). -/
def c2Final : BTree Int Int :=
  { root := .mk [2, 2, 2, 2]
      [.mk [0, 2] [], .mk [2, 2] [], .mk [2, 2] [], .mk [2, 2] [], .mk [2, 2] [],
       .mk [2, 2] []],
    maxsize := 4, minsize := 2, keyfunc := fun x => x }

/-- The tree produced by inserting `c7Inserts` into `mkBTree 4 (fun x => x)`
(computed through the fuelled mirrors; certified in the C7 theorem below). -/
def c7AfterInserts : BTree Int Int :=
  { root := .mk [2]
      [.mk [0, 2] [.mk [0, 0] [], .mk [0, 0] [], .mk [2, 2] []],
       .mk [2, 2, 2] [.mk [2, 2] [], .mk [2, 2] [], .mk [2, 2] [], .mk [2, 2, 2] []]],
    maxsize := 4, minsize := 2, keyfunc := fun x => x }

/-! ## Theorems about the claims -/

/-- C5 counterexample: `split` on a node with `n = 3` items and `n + 2 = 5`
children keeps the first `⌊5/2⌋ = 2` children on the left half, not the
`⌈5/2⌉ = 3` the claim states (`numkids/2` is Python 2 floor division). -/
theorem c5_split_left_keeps_floor_not_ceil :
    splitProbe.split.map (fun m => m.children.length) = [2, 3] ∧ (2 : Nat) ≠ (3 + 2 + 1) / 2 := by
  constructor
  · rfl
  · decide

/-- C5, amended: when `split` is invoked on a node whose children count is
`items.length + 2` (the state after the median was popped), the left half keeps
the first `⌊(n+2)/2⌋` children and the right half the rest, and each half
satisfies `children.length = items.length + 1`. -/
theorem c5_split_halves_spec {α : Type} (items : List α) (children : List (BNode α))
    (h : children.length = items.length + 2) :
    ∃ L R, BNode.split (.mk items children) = [L, R] ∧
      L.children = children.take ((items.length + 2) / 2) ∧
      R.children = children.drop ((items.length + 2) / 2) ∧
      L.children.length = L.items.length + 1 ∧
      R.children.length = R.items.length + 1 := by
  refine ⟨_, _, rfl, rfl, rfl, ?_, ?_⟩ <;>
    simp [BNode.items, BNode.children, h] <;> omega

/-- C5 witness for the amended theorem, at the concrete 3-item, 5-child node. -/
theorem c5_split_halves_spec_witness :
    ∃ L R, BNode.split (.mk [1, 2, 3] (List.replicate 5 (BNode.mk ([] : List Int) []))) = [L, R] ∧
      L.children = (List.replicate 5 (BNode.mk ([] : List Int) [])).take ((3 + 2) / 2) ∧
      R.children = (List.replicate 5 (BNode.mk ([] : List Int) [])).drop ((3 + 2) / 2) ∧
      L.children.length = L.items.length + 1 ∧
      R.children.length = R.items.length + 1 :=
  c5_split_halves_spec [1, 2, 3] (List.replicate 5 (BNode.mk [] [])) (by simp)

/-- C8 counterexample: constructing a tree with `maxsize = 2 < 3` (hence
`minsize = 1`) does not fail; `BTree.__init__` contains no validation and
returns an ordinary empty tree. -/
theorem c8_invalid_bounds_accepted :
    (mkBTree 2 (id : Int → Int)).maxsize = 2 ∧
    (mkBTree 2 (id : Int → Int)).minsize = 1 ∧
    (mkBTree 2 (id : Int → Int)).root = .mk [] [] :=
  ⟨rfl, rfl, rfl⟩

/-- C8, amended: construction never fails for any occupancy bound: the
constructor performs no validation, sets `minsize = maxsize / 2`, and the
resulting tree is operational (a first insert succeeds and stores the item). -/
theorem c8_constructor_never_fails (maxsize : Nat) (x : Int) :
    (mkBTree maxsize (id : Int → Int)).minsize = maxsize / 2 ∧
    ∃ t2, (mkBTree maxsize (id : Int → Int)).insert x = .ok t2 ∧ t2.root.items = [x] := by
  refine ⟨rfl, ?_⟩
  match maxsize with
  | 0 =>
    refine ⟨{ root := .mk [x] [.mk [] [], .mk [] []], maxsize := 0, minsize := 0,
              keyfunc := id }, ?_, rfl⟩
    simp [mkBTree, BTree.insert, BNode.insert, BNode.insert_here, add_item, pop_median,
          sortB, insLoop, BTree._mk_new_root, BNode.split, BNode.items, BNode.children]
  | n + 1 =>
    refine ⟨{ root := .mk [x] [], maxsize := n + 1, minsize := (n + 1) / 2,
              keyfunc := id }, ?_, rfl⟩
    simp [mkBTree, BTree.insert, BNode.insert, BNode.insert_here, add_item, pop_median,
          sortB, insLoop, BNode.items, BNode.children]

/-- C9: `validate` in state-passing form leaves the tree unchanged (its source
performs no writes), so iteration after it is identical and a second call
returns the same result as the first. -/
theorem c9_validate_pure_idempotent {α κ : Type} [LinearOrder κ] (t : BTree α κ) :
    (BTree.validateRun t).2 = t ∧
    (BTree.validateRun (BTree.validateRun t).2).1 = (BTree.validateRun t).1 ∧
    (BTree.validateRun t).2.toList = t.toList :=
  ⟨rfl, rfl, rfl⟩

/-- C3: the claim promises `KeyNotFoundError` for every tree including the
empty one, but deleting any key from a freshly-constructed (empty) tree hits
the unbound `ind` in `find_by_key` (btree.py line 26, the loop body never ran)
and raises `NameError`, not the `BTreeException("Item not in tree.")` the
contract names. -/
theorem c3_empty_tree_delete_raises_nameError (mx : Nat) (key : Int) :
    ((mkBTree mx (id : Int → Int)).delete_by_key key).2 = .error .nameError ∧
    Err.nameError ≠ Err.itemNotInTree := by
  refine ⟨?_, by decide⟩
  simp [mkBTree, BTree.delete_by_key, BTree._delete, BNode.delete, BNode.find_by_key]

/-- C10: `Tree.delete(x)` is definitionally `delete_by_key(keyExtractor(x))`
(btree.py lines 189-193), and deletion resolves purely by key: on the tree
holding the two distinct items `(1, 10)` and `(1, 20)` with equal key `1`
(built by two inserts into `mkBTree 4 Prod.fst`), deleting the object
`(1, 20)` succeeds but removes the first match `(1, 10)`, leaving `(1, 20)`. -/
theorem c10_delete_resolves_by_key :
    (∀ (α κ : Type) [LinearOrder κ] (t : BTree α κ) (x : α),
      BTree.delete t x = BTree.delete_by_key t (t.keyfunc x)) ∧
    (∃ t1, (mkBTree 4 Prod.fst).insert ((1 : Int), (10 : Int)) = .ok t1 ∧
      t1.insert (1, 20) = .ok dupKeyTree) ∧
    (dupKeyTree.delete (1, 20)).2 = .ok () ∧
    (dupKeyTree.delete (1, 20)).1.toList = [(1, 20)] := by
  refine ⟨fun α κ _ t x => rfl, ⟨?_, ?_, ?_⟩, ?_, ?_⟩
  · exact { root := .mk [(1, 10)] [], maxsize := 4, minsize := 2, keyfunc := Prod.fst }
  · simp [mkBTree, BTree.insert, BNode.insert, BNode.insert_here, add_item, pop_median,
          sortB, insLoop]
  · simp [BTree.insert, BNode.insert, BNode.insert_here, add_item, pop_median,
          sortB, insLoop, dupKeyTree]
  · simp [dupKeyTree, BTree.delete, BTree._delete, BNode.delete, BNode.find_by_key, findLoop,
          BNode.items, BNode.children]
  · simp [dupKeyTree, BTree.delete, BTree._delete, BNode.delete, BNode.find_by_key, findLoop,
          BTree.toList, BNode.toList, BNode.items, BNode.children]


/-! ### Infrastructure for the failed-deletion claims -/


theorem findLoop_true_mem (kf : α → κ) (key : κ) (items : List α) :
    ∀ (j i : Nat), findLoop kf key true j items = (true, i) → ∃ a ∈ items, kf a = key := by
  induction items with
  | nil => intro j i h; simp [findLoop] at h
  | cons x rest ih =>
    intro j i h
    by_cases hx : kf x = key
    · exact ⟨x, List.mem_cons_self x rest, hx⟩
    · by_cases hlt : key < kf x
      · simp [findLoop, hx, hlt] at h
      · simp only [findLoop, hx, hlt] at h
        simp at h
        obtain ⟨a, ha, hk⟩ := ih (j + 1) i h
        exact ⟨a, List.mem_cons_of_mem x ha, hk⟩

theorem find_by_key_true_mem (kf : α → κ) (key : κ) (n : BNode α) (i : Nat) :
    BNode.find_by_key kf key true n = .ok (true, i) → ∃ a ∈ n.items, kf a = key := by
  obtain ⟨items, children⟩ := n
  cases items with
  | nil => intro h; simp [BNode.find_by_key] at h
  | cons x rest =>
    intro h
    simp only [BNode.find_by_key, Except.ok.injEq] at h
    exact findLoop_true_mem kf key (x :: rest) 0 i h

theorem list_set_self (l : List α) : ∀ (i : Nat) (a : α), l[i]? = some a → l.set i a = l := by
  induction l with
  | nil => intro i a h; simp at h
  | cons x rest ih =>
    intro i a h
    cases i with
    | zero => simp at h; simp [h]
    | succ j => simp at h; simp [List.set_cons_succ, ih j a h]

theorem mem_allItems_of_mem_items {a : α} {items : List α} {children : List (BNode α)}
    (h : a ∈ items) : a ∈ (BNode.mk items children).allItems := by
  rw [BNode.allItems]
  exact List.mem_append_left _ h

theorem mem_allItems_of_mem_child {a : α} {c : BNode α} {items : List α}
    {children : List (BNode α)} (hc : c ∈ children) (h : a ∈ c.allItems) :
    a ∈ (BNode.mk items children).allItems := by
  rw [BNode.allItems]
  refine List.mem_append_right _ ?_
  rw [List.mem_flatMap]
  exact ⟨⟨c, hc⟩, List.mem_attach _ _, h⟩

theorem find_true_absurd (kf : α → κ) (key : κ) {items : List α} {children : List (BNode α)}
    (habs : key ∉ (BNode.mk items children).allItems.map kf) {i : Nat} :
    ¬ BNode.find_by_key kf key true (BNode.mk items children) = .ok (true, i) := by
  intro hfind
  obtain ⟨a, ha, hk⟩ := find_by_key_true_mem kf key _ _ hfind
  have ha2 : a ∈ items := by simpa [BNode.items] using ha
  exact habs (List.mem_map.mpr ⟨a, mem_allItems_of_mem_items ha2, hk⟩)

theorem delete_absent (kf : α → κ) (mn mx : Nat) (n : BNode α) (key : κ) :
    key ∉ n.allItems.map kf → ∃ e, BNode.delete kf mn mx n key = (n, .error e) := by
  induction n, key using BNode.delete.induct kf mn mx
  all_goals intro habs
  case case1 items children key e hfind =>
    exact ⟨e, by rw [BNode.delete, hfind]⟩
  all_goals try { exfalso; apply find_true_absurd kf _ habs; assumption }
  case case3 items children key fst child_ind hfind hemp hne =>
    cases fst with
    | true => exact absurd rfl hne
    | false =>
      refine ⟨.itemNotInTree, ?_⟩
      rw [BNode.delete, hfind]
      simp [hemp]
  case case4 items children key fst child_ind hfind hne l_children r_children e hsel =>
    refine ⟨e, ?_⟩
    rw [BNode.delete, hfind]
    unfold l_children r_children at hsel
    simp only [List.length_drop, dite_eq_ite] at hsel
    simp [hne, hsel]
  case case9 items children key fst child_ind hfind hne l_children r_children l_chs r_chs l_child deadchild item_ind hsel hfst hnone =>
    cases fst with
    | true => exact absurd rfl hfst
    | false =>
      refine ⟨.indexError, ?_⟩
      rw [BNode.delete, hfind]
      unfold l_children r_children at hsel
      simp only [List.length_drop, dite_eq_ite] at hsel
      simp [hne, hsel]
      split
      · rfl
      · rename_i exp_child heq
        rw [hnone] at heq
        cases heq
  case case10 items children key fst child_ind hfind hne l_children r_children l_chs r_chs l_child deadchild item_ind hsel hfst child hsome child2 e hdel ih =>
    have hchmem : child ∈ children := by
      obtain ⟨hlt, hget⟩ := List.getElem?_eq_some_iff.mp hsome
      exact hget ▸ List.getElem_mem hlt
    obtain ⟨e2, he2⟩ := ih (fun hc => by
      obtain ⟨a, ha, hk⟩ := List.mem_map.mp hc
      exact habs (List.mem_map.mpr ⟨a, mem_allItems_of_mem_child hchmem ha, hk⟩))
    rw [he2] at hdel
    injection hdel with h1 h2
    injection h2 with h3
    cases fst with
    | true => exact absurd rfl hfst
    | false =>
      refine ⟨e2, ?_⟩
      rw [BNode.delete, hfind]
      unfold l_children r_children at hsel
      simp only [List.length_drop, dite_eq_ite] at hsel
      simp [hne, hsel]
      split
      · rename_i heq
        rw [hsome] at heq
        cases heq
      · rename_i exp_child heq
        rw [hsome] at heq
        injection heq with heq2
        subst heq2
        rw [he2]
        simp [list_set_self children child_ind child hsome]
  all_goals {
    exfalso
    rename _ = some (_ : BNode _) => hsome
    rename BNode.delete _ _ _ _ _ = (_, Except.ok _) => hdel
    rename _ ∉ _ → _ => ih
    obtain ⟨e2, he2⟩ := ih (fun hc => by
      obtain ⟨a, ha, hk⟩ := List.mem_map.mp hc
      obtain ⟨hlt, hget⟩ := List.getElem?_eq_some_iff.mp hsome
      exact habs (List.mem_map.mpr ⟨a, mem_allItems_of_mem_child (hget ▸ List.getElem_mem hlt) ha, hk⟩))
    rw [he2] at hdel
    simp at hdel
  }

/-- C4: a key that appears in no node's `items` makes `delete_by_key` fail, and
the failed call leaves the tree completely unchanged (in particular iterating
before and after the failure yields the identical sequence).  The exception
propagates from the leaf (or from the empty root) before any frame has mutated
its node. -/
theorem c4_failed_delete_leaves_tree_unchanged {α κ : Type} [LinearOrder κ]
    (t : BTree α κ) (key : κ) (habs : key ∉ t.root.allItems.map t.keyfunc) :
    (t.delete_by_key key).1 = t ∧ (∃ e, (t.delete_by_key key).2 = .error e) ∧
    (t.delete_by_key key).1.toList = t.toList := by
  obtain ⟨e, he⟩ := delete_absent t.keyfunc t.minsize t.maxsize t.root key habs
  refine ⟨?_, ⟨e, ?_⟩, ?_⟩ <;> simp [BTree.delete_by_key, BTree._delete, he]

/-- C4 witness: deleting the absent key `9` from the tree holding `1, 2, 3`
fails and changes nothing. -/
theorem c4_failed_delete_witness :
    (9 : Int) ∉ absentProbeTree.root.allItems.map absentProbeTree.keyfunc ∧
    (absentProbeTree.delete_by_key 9).1 = absentProbeTree ∧
    (∃ e, (absentProbeTree.delete_by_key 9).2 = .error e) ∧
    (absentProbeTree.delete_by_key 9).1.toList = absentProbeTree.toList := by
  have habs : (9 : Int) ∉ absentProbeTree.root.allItems.map absentProbeTree.keyfunc := by
    simp [absentProbeTree, BNode.allItems]
  exact ⟨habs, c4_failed_delete_leaves_tree_unchanged absentProbeTree 9 habs⟩


/-! ### Infrastructure for the insertion claims -/


/-- Inserting one element with `insLoop` grows the list by exactly one. -/
theorem insLoop_length (le : α → α → Bool) (a : α) (l : List α) :
    (insLoop le a l).length = l.length + 1 := by
  induction l with
  | nil => rfl
  | cons b l ih =>
    by_cases h : le a b <;> simp [insLoop, h, ih]

/-- `sortB` preserves length. -/
theorem sortB_length (le : α → α → Bool) (l : List α) :
    (sortB le l).length = l.length := by
  induction l with
  | nil => rfl
  | cons b l ih => simp [sortB, insLoop_length, ih]

theorem add_item_length (kf : α → κ) (l : List α) (x : α) :
    (add_item kf l x).length = l.length + 1 := by
  simp [add_item, sortB_length]

/-- `pop_median` succeeds on any nonempty list and shrinks it by one. -/
theorem pop_median_ok (l : List α) (h : 1 ≤ l.length) :
    ∃ med l2, pop_median l = .ok (med, l2) ∧ l2.length = l.length - 1 := by
  have hlt : (if l.length % 2 ≠ 0 then l.length / 2 else (l.length - 1) / 2) < l.length := by
    by_cases hp : l.length % 2 ≠ 0 <;> simp [hp] <;> omega
  simp only [pop_median, List.getElem?_eq_getElem hlt]
  exact ⟨_, _, rfl, by rw [List.length_eraseIdx_of_lt hlt]⟩

/-- While the root is a leaf with room to spare, every insert lands in it:
after inserting `xs` the root is still a leaf and holds all items. -/
theorem insertAll_leaf (xs : List α) : ∀ (t : BTree α κ) (l : List α),
    t.root = .mk l [] → l.length + xs.length ≤ t.maxsize →
    ∃ l2, insertAll t xs = .ok { t with root := .mk l2 [] } ∧
      l2.length = l.length + xs.length := by
  induction xs with
  | nil =>
    intro t l hroot hlen
    refine ⟨l, ?_, by simp⟩
    simp only [insertAll, List.foldlM_nil, ← hroot]
    rfl
  | cons x xs ih =>
    intro t l hroot hlen
    simp only [List.length_cons] at hlen
    have hstep : t.insert x = .ok { t with root := .mk (add_item t.keyfunc l x) [] } := by
      rw [BTree.insert, hroot]
      rw [BNode.insert]
      rw [BNode.insert_here]
      rw [if_neg (by simp only [add_item_length, gt_iff_lt, not_lt]; omega)]
    have hlen2 : (add_item t.keyfunc l x).length + xs.length ≤ t.maxsize := by
      rw [add_item_length]; omega
    obtain ⟨l2, hall, hl2⟩ := ih { t with root := .mk (add_item t.keyfunc l x) [] } _ rfl hlen2
    refine ⟨l2, ?_, by simp [hl2, add_item_length]; omega⟩
    rw [insertAll, List.foldlM_cons, hstep]
    simpa [insertAll] using hall

/-- C6: inserting `maxOccupancy + 1` distinct-keyed items into a fresh empty
tree forces exactly one root split: the final root holds exactly 1 item and 2
children, and each child's item count lies within
`[minOccupancy, maxOccupancy] = [maxsize / 2, maxsize]`. -/
theorem c6_root_split_shape (mx : Nat) (hmx : 3 ≤ mx) (xs : List Int)
    (hlen : xs.length = mx + 1) (hnd : xs.Nodup) :
    ∃ t2, insertAll (mkBTree mx (id : Int → Int)) xs = .ok t2 ∧
      t2.root.items.length = 1 ∧ t2.root.children.length = 2 ∧
      ∀ c ∈ t2.root.children, t2.minsize ≤ c.items.length ∧ c.items.length ≤ t2.maxsize := by
  have hne : xs ≠ [] := by
    intro h; rw [h] at hlen; simp at hlen
  obtain ⟨ys, z, rfl⟩ : ∃ ys z, xs = ys ++ [z] :=
    ⟨xs.dropLast, xs.getLast hne, (List.dropLast_append_getLast hne).symm⟩
  have hyslen : ys.length = mx := by
    simp only [List.length_append, List.length_singleton] at hlen; omega
  obtain ⟨l2, hall, hl2⟩ := insertAll_leaf ys (mkBTree mx id) [] rfl
    (by simp [mkBTree]; omega)
  simp only [List.length_nil, Nat.zero_add, hyslen] at hl2
  obtain ⟨med, items3, hpop, hlen3⟩ := pop_median_ok (add_item id l2 z)
    (by rw [add_item_length]; omega)
  rw [add_item_length, hl2] at hlen3
  have hnode : BNode.insert (id : Int → Int) mx (.mk l2 []) z = .ok (.mk items3 [], some med) := by
    rw [BNode.insert, BNode.insert_here, if_pos (by rw [add_item_length]; omega), hpop]
  refine ⟨{ root := .mk (add_item id [] med) ((BNode.mk items3 ([] : List (BNode Int))).split),
            maxsize := mx, minsize := mx / 2, keyfunc := id }, ?_, ?_, ?_, ?_⟩
  · rw [insertAll, List.foldlM_append, ← insertAll, hall]
    show (BTree.insert _ z >>= pure) = _
    simp only [BTree.insert, mkBTree, hnode]
    simp [BTree._mk_new_root, mkBTree]
  · simp [BNode.items, add_item, sortB, insLoop]
  · simp [BNode.children, BNode.split]
  · intro c hc
    simp only [BNode.children, BNode.split] at hc
    rcases List.mem_cons.mp hc with hc2 | hc2
    · rw [hc2]; simp [BNode.items]; omega
    · rw [List.mem_singleton.mp hc2]; simp [BNode.items, hlen3]; omega

/-- C6 witness at `maxOccupancy = 4` with the five distinct items `0..4`. -/
theorem c6_root_split_shape_witness :
    (3 ≤ 4 ∧ ([0, 1, 2, 3, 4] : List Int).length = 4 + 1 ∧ ([0, 1, 2, 3, 4] : List Int).Nodup) ∧
    (∃ t2, insertAll (mkBTree 4 (id : Int → Int)) [0, 1, 2, 3, 4] = .ok t2 ∧
      t2.root.items.length = 1 ∧ t2.root.children.length = 2 ∧
      ∀ c ∈ t2.root.children, t2.minsize ≤ c.items.length ∧ c.items.length ≤ t2.maxsize) :=
  ⟨⟨by decide, by decide, by decide⟩,
   c6_root_split_shape 4 (by decide) [0, 1, 2, 3, 4] (by decide) (by decide)⟩



/-! ### Soundness of the fuelled mirrors -/

theorem toListAux_sound : ∀ (fuel : Nat) (x : BNode α ⊕ (List α × List (BNode α))) (l : List α),
    toListAux fuel x = some l →
    (match x with
     | .inl n => n.toList = l
     | .inr (is_, cs) => iterZip is_ cs = l) := by
  intro fuel
  induction fuel with
  | zero => intro x l h; simp [toListAux] at h
  | succ fuel ih =>
    intro x l h
    match x with
    | .inl (.mk items children) =>
      match children with
      | [] =>
        simp only [toListAux, Option.some.injEq] at h
        simp [BNode.toList, ← h]
      | c0 :: cs =>
        simp only [toListAux] at h
        cases h0 : toListAux fuel (.inl c0) with
        | none => rw [h0] at h; simp at h
        | some a =>
          cases h1 : toListAux fuel (.inr (items, cs)) with
          | none => rw [h0, h1] at h; simp at h
          | some b =>
            rw [h0, h1] at h
            simp only [Option.some.injEq] at h
            have ha := ih (.inl c0) a h0
            have hb := ih (.inr (items, cs)) b h1
            simp only at ha hb
            show (BNode.mk items (c0 :: cs)).toList = l
            rw [show (BNode.mk items (c0 :: cs)).toList = c0.toList ++ iterZip items cs from by
              rw [BNode.toList.eq_def], ha, hb, h]
    | .inr (is_, cs) =>
      match is_, cs with
      | _, [] =>
        simp only [toListAux, Option.some.injEq] at h
        cases is_ <;> simp [iterZip, ← h]
      | [], _ :: _ =>
        simp only [toListAux, Option.some.injEq] at h
        simp [iterZip, ← h]
      | i :: is2, c :: cs2 =>
        simp only [toListAux] at h
        cases h0 : toListAux fuel (.inl c) with
        | none => rw [h0] at h; simp at h
        | some a =>
          cases h1 : toListAux fuel (.inr (is2, cs2)) with
          | none => rw [h0, h1] at h; simp at h
          | some b =>
            rw [h0, h1] at h
            simp only [Option.some.injEq] at h
            have ha := ih (.inl c) a h0
            have hb := ih (.inr (is2, cs2)) b h1
            simp only at ha hb
            show iterZip (i :: is2) (c :: cs2) = l
            rw [show iterZip (i :: is2) (c :: cs2) = i :: (c.toList ++ iterZip is2 cs2) from by
              rw [iterZip.eq_def], ha, hb, h]

theorem toListF_sound (fuel : Nat) (n : BNode α) (l : List α)
    (h : toListF fuel n = some l) : n.toList = l :=
  toListAux_sound fuel (.inl n) l h

theorem mergeF_sound (keyfunc : α → κ) (maxcount : Nat) :
    ∀ (fuel : Nat) (a b : BNode α) (r : Except Err (BNode α × Option α)),
    mergeF keyfunc maxcount fuel a b = some r → BNode.merge keyfunc maxcount a b = r := by
  intro fuel
  induction fuel with
  | zero =>
    intro a b r h
    match a, b with
    | .mk sitems [], .mk oitems oc =>
      simp only [mergeF, Option.some.injEq] at h
      rw [BNode.merge, h]
    | .mk sitems (s0 :: ss), .mk oitems oc =>
      simp [mergeF] at h
  | succ fuel ih =>
    intro a b r h
    match a, b with
    | .mk sitems [], .mk oitems oc =>
      simp only [mergeF, Option.some.injEq] at h
      rw [BNode.merge, h]
    | .mk sitems (s0 :: ss), .mk oitems [] =>
      simp only [mergeF, Option.some.injEq] at h
      rw [BNode.merge, h]
    | .mk sitems (s0 :: ss), .mk oitems (r0 :: rs) =>
      simp only [mergeF] at h
      cases hm : mergeF keyfunc maxcount fuel ((s0 :: ss).getLast (by simp)) r0 with
      | none => rw [hm] at h; simp at h
      | some m =>
        rw [hm] at h
        have hreal := ih _ r0 m hm
        rw [BNode.merge, hreal]
        match m with
        | .error e => simp only [Option.some.injEq] at h; rw [← h]
        | .ok (l2, none) => simp only [Option.some.injEq] at h; rw [← h]
        | .ok (l2, some bb) => simp only [Option.some.injEq] at h; rw [← h]

theorem insertF_sound (keyfunc : α → κ) (maxcount : Nat) :
    ∀ (fuel : Nat) (n : BNode α) (x : α) (r : Except Err (BNode α × Option α)),
    insertF keyfunc maxcount fuel n x = some r → BNode.insert keyfunc maxcount n x = r := by
  intro fuel
  induction fuel with
  | zero =>
    intro n x r h
    match n with
    | .mk items [] =>
      simp only [insertF, Option.some.injEq] at h
      rw [BNode.insert, h]
    | .mk items (c0 :: cs) => simp [insertF] at h
  | succ fuel ih =>
    intro n x r h
    match n with
    | .mk items [] =>
      simp only [insertF, Option.some.injEq] at h
      rw [BNode.insert, h]
    | .mk items (c0 :: cs) =>
      simp only [insertF] at h
      rw [BNode.insert]
      cases hf : BNode.find_by_key keyfunc (keyfunc x) false (.mk items (c0 :: cs)) with
      | error e =>
        rw [hf] at h
        simp only [Option.some.injEq] at h
        rw [← h]
      | ok p =>
        obtain ⟨bb, ci⟩ := p
        rw [hf] at h
        simp only at h
        dsimp only
        split
        · rename_i heq
          rw [heq] at h
          dsimp only at h
          simp only [Option.some.injEq] at h
          rw [← h]
        · rename_i child heq
          rw [heq] at h
          dsimp only at h
          cases hi : insertF keyfunc maxcount fuel child x with
          | none => rw [hi] at h; simp at h
          | some m =>
            rw [hi] at h
            have hreal := ih child x m hi
            rw [hreal]
            match m with
            | .error e => simp only [Option.some.injEq] at h; rw [← h]
            | .ok (c2, none) => simp only [Option.some.injEq] at h; rw [← h]
            | .ok (c2, some b2) => simp only [Option.some.injEq] at h; rw [← h]

theorem deleteF_sound (keyfunc : α → κ) (mincount maxcount : Nat) :
    ∀ (fuel : Nat) (n : BNode α) (key : κ) (r : BNode α × Except Err Bool),
    deleteF keyfunc mincount maxcount fuel n key = some r →
    BNode.delete keyfunc mincount maxcount n key = r := by
  intro fuel
  induction fuel with
  | zero => intro n key r h; simp [deleteF] at h
  | succ fuel ih =>
    intro n key r h
    match n with
    | .mk items children =>
      simp only [deleteF] at h
      rw [BNode.delete]
      cases hf : BNode.find_by_key keyfunc key true (.mk items children) with
      | error e =>
        rw [hf] at h
        dsimp only at h ⊢
        simp only [Option.some.injEq] at h
        rw [← h]
      | ok p =>
        obtain ⟨here, ind⟩ := p
        rw [hf] at h
        dsimp only at h ⊢
        by_cases hemp : children.isEmpty
        · simp only [hemp, if_true] at h ⊢
          cases here with
          | true =>
            simp only [if_true] at h ⊢
            simp only [Option.some.injEq] at h
            rw [← h]
          | false =>
            simp only [Bool.false_eq_true, if_false] at h ⊢
            simp only [Option.some.injEq] at h
            rw [← h]
        · simp only [Bool.not_eq_true] at hemp
          simp only [hemp, Bool.false_eq_true, if_false] at h ⊢
          cases hsel :
            (if (List.drop ind children).length = 1 then
              match (List.take ind children).getLast?, List.drop ind children with
              | some lc, dc :: _ =>
                Except.ok (List.dropLast (List.take ind children), ([] : List (BNode α)), lc, dc, ind - 1)
              | _, _ => Except.error Err.indexError
            else
              match List.drop ind children with
              | a :: b :: rest => Except.ok (List.take ind children, rest, a, b, ind)
              | _ => Except.error Err.indexError) with
          | error e =>
            rw [hsel] at h
            dsimp only at h ⊢
            simp only [Option.some.injEq] at h
            rw [← h]
          | ok q =>
            obtain ⟨l_chs, r_chs, l_child, deadchild, item_ind⟩ := q
            rw [hsel] at h
            dsimp only at h ⊢
            cases here with
            | true =>
              simp only [if_true] at h ⊢
              cases hm : mergeF keyfunc maxcount fuel l_child deadchild with
              | none => rw [hm] at h; simp at h
              | some m =>
                rw [mergeF_sound keyfunc maxcount fuel l_child deadchild m hm]
                match m with
                | .error e =>
                  rw [hm] at h
                  dsimp only at h ⊢
                  simp only [Option.some.injEq] at h
                  rw [← h]
                | .ok (merged, some b) =>
                  rw [hm] at h
                  dsimp only at h ⊢
                  cases hih : BNode.insert_here keyfunc maxcount
                      (.mk (items.eraseIdx ind) (l_chs ++ merged.split ++ r_chs)) b with
                  | error e =>
                    rw [hih] at h
                    simp only [Option.some.injEq] at h
                    rw [← h]
                  | ok q2 =>
                    obtain ⟨n2, snd⟩ := q2
                    rw [hih] at h
                    simp only [Option.some.injEq] at h
                    rw [← h]
                | .ok (merged, none) =>
                  rw [hm] at h
                  dsimp only at h ⊢
                  simp only [Option.some.injEq] at h
                  rw [← h]
            | false =>
              simp only [Bool.false_eq_true, if_false] at h ⊢
              cases hg : children[ind]? with
              | none =>
                rw [hg] at h
                dsimp only at h ⊢
                simp only [Option.some.injEq] at h
                rw [← h]
              | some exp_child =>
                rw [hg] at h
                dsimp only at h ⊢
                cases hd : deleteF keyfunc mincount maxcount fuel exp_child key with
                | none => rw [hd] at h; simp at h
                | some dres =>
                  obtain ⟨child2, res⟩ := dres
                  rw [ih exp_child key (child2, res) hd]
                  match res with
                  | .error e =>
                    rw [hd] at h
                    dsimp only at h ⊢
                    simp only [Option.some.injEq] at h
                    rw [← h]
                  | .ok underflow =>
                    rw [hd] at h
                    dsimp only at h ⊢
                    cases underflow with
                    | false =>
                      simp only [Bool.false_eq_true, if_false] at h ⊢
                      simp only [Option.some.injEq] at h
                      rw [← h]
                    | true =>
                      simp only [if_true] at h ⊢
                      cases hm2 : mergeF keyfunc maxcount fuel
                          (if (List.drop ind children).length = 1 then (l_child, child2)
                           else (child2, deadchild)).1
                          (if (List.drop ind children).length = 1 then (l_child, child2)
                           else (child2, deadchild)).2 with
                      | none => rw [hm2] at h; simp at h
                      | some m2 =>
                        rw [mergeF_sound keyfunc maxcount fuel _ _ m2 hm2]
                        match m2 with
                        | .error e =>
                          rw [hm2] at h
                          dsimp only at h ⊢
                          simp only [Option.some.injEq] at h
                          rw [← h]
                        | .ok (merged, some b) =>
                          rw [hm2] at h
                          dsimp only at h ⊢
                          cases hit : items[item_ind]? with
                          | none =>
                            rw [hit] at h
                            dsimp only at h ⊢
                            simp only [Option.some.injEq] at h
                            rw [← h]
                          | some olditem =>
                            rw [hit] at h
                            dsimp only at h ⊢
                            cases hins : insertF keyfunc maxcount fuel
                                (.mk (items.set item_ind b) (l_chs ++ merged.split ++ r_chs)) olditem with
                            | none => rw [hins] at h; simp at h
                            | some mi =>
                              rw [insertF_sound keyfunc maxcount fuel _ olditem mi hins]
                              match mi with
                              | .error e =>
                                rw [hins] at h
                                dsimp only at h ⊢
                                simp only [Option.some.injEq] at h
                                rw [← h]
                              | .ok (n2, snd) =>
                                rw [hins] at h
                                dsimp only at h ⊢
                                simp only [Option.some.injEq] at h
                                rw [← h]
                        | .ok (merged, none) =>
                          rw [hm2] at h
                          dsimp only at h ⊢
                          cases hit : items[item_ind]? with
                          | none =>
                            rw [hit] at h
                            dsimp only at h ⊢
                            simp only [Option.some.injEq] at h
                            rw [← h]
                          | some item =>
                            rw [hit] at h
                            dsimp only at h ⊢
                            cases hins : insertF keyfunc maxcount fuel merged item with
                            | none => rw [hins] at h; simp at h
                            | some mi =>
                              rw [insertF_sound keyfunc maxcount fuel merged item mi hins]
                              match mi with
                              | .error e =>
                                rw [hins] at h
                                dsimp only at h ⊢
                                simp only [Option.some.injEq] at h
                                rw [← h]
                              | .ok (lchild2, none) =>
                                rw [hins] at h
                                dsimp only at h ⊢
                                simp only [Option.some.injEq] at h
                                rw [← h]
                              | .ok (lchild2, some b2) =>
                                rw [hins] at h
                                dsimp only at h ⊢
                                cases hih : BNode.insert_here keyfunc maxcount
                                    (.mk (items.eraseIdx item_ind) (l_chs ++ lchild2.split ++ r_chs)) b2 with
                                | error e =>
                                  rw [hih] at h
                                  simp only [Option.some.injEq] at h
                                  rw [← h]
                                | ok q2 =>
                                  obtain ⟨n2, snd⟩ := q2
                                  rw [hih] at h
                                  simp only [Option.some.injEq] at h
                                  rw [← h]

theorem insertTF_sound (fuel : Nat) (t : BTree α κ) (item : α)
    (r : Except Err (BTree α κ)) (h : insertTF fuel t item = some r) :
    BTree.insert t item = r := by
  unfold insertTF at h
  unfold BTree.insert
  cases hi : insertF t.keyfunc t.maxsize fuel t.root item with
  | none => rw [hi] at h; simp at h
  | some m =>
    rw [insertF_sound t.keyfunc t.maxsize fuel t.root item m hi]
    match m with
    | .error e =>
      rw [hi] at h
      dsimp only at h ⊢
      simp only [Option.some.injEq] at h
      rw [← h]
    | .ok (root2, none) =>
      rw [hi] at h
      dsimp only at h ⊢
      simp only [Option.some.injEq] at h
      rw [← h]
    | .ok (root2, some b) =>
      rw [hi] at h
      dsimp only at h ⊢
      simp only [Option.some.injEq] at h
      rw [← h]

theorem deleteTF_sound (fuel : Nat) (t : BTree α κ) (key : κ)
    (r : BTree α κ × Except Err Unit) (h : deleteTF fuel t key = some r) :
    BTree._delete t key = r := by
  unfold deleteTF at h
  unfold BTree._delete
  cases hd : deleteF t.keyfunc t.minsize t.maxsize fuel t.root key with
  | none => rw [hd] at h; simp at h
  | some p =>
    obtain ⟨root2, res⟩ := p
    rw [deleteF_sound t.keyfunc t.minsize t.maxsize fuel t.root key (root2, res) hd]
    match res with
    | .error e =>
      rw [hd] at h
      dsimp only at h ⊢
      simp only [Option.some.injEq] at h
      rw [← h]
    | .ok u =>
      rw [hd] at h
      dsimp only at h ⊢
      by_cases hemp : root2.items.isEmpty
      · simp only [hemp, if_true] at h ⊢
        cases hc : root2.children with
        | nil =>
          rw [hc] at h
          dsimp only at h ⊢
          simp only [Option.some.injEq] at h
          rw [← h]
        | cons c cs =>
          rw [hc] at h
          dsimp only at h ⊢
          simp only [Option.some.injEq] at h
          rw [← h]
      · simp only [Bool.not_eq_true] at hemp
        simp only [hemp, Bool.false_eq_true, if_false] at h ⊢
        simp only [Option.some.injEq] at h
        rw [← h]

theorem applyOpsF_sound [BEq κ] (fuel : Nat) :
    ∀ (ops : List (α ⊕ κ)) (t tf : BTree α κ),
    applyOpsF fuel t ops = some tf → applyOps t ops = some tf := by
  intro ops
  induction ops with
  | nil =>
    intro t tf h
    simp only [applyOpsF, Option.some.injEq] at h
    simp only [applyOps, h]
  | cons op rest ih =>
    intro t tf h
    match op with
    | .inl x =>
      simp only [applyOpsF] at h
      simp only [applyOps]
      cases hi : insertTF fuel t x with
      | none => rw [hi] at h; simp at h
      | some m =>
        rw [insertTF_sound fuel t x m hi]
        match m with
        | .error e => rw [hi] at h; dsimp only at h; simp at h
        | .ok t2 =>
          rw [hi] at h
          dsimp only at h ⊢
          exact ih t2 tf h
    | .inr k =>
      simp only [applyOpsF] at h
      simp only [applyOps]
      cases hl : toListF fuel t.root with
      | none => rw [hl] at h; simp at h
      | some l =>
        rw [hl] at h
        dsimp only at h
        have hL : t.toList = l := toListF_sound fuel t.root l hl
        rw [BTree.delete_by_key, hL]
        by_cases hc : (l.map t.keyfunc).contains k
        · simp only [hc, if_true] at h ⊢
          cases hd : deleteTF fuel t k with
          | none => rw [hd] at h; simp at h
          | some p =>
            obtain ⟨t2, res⟩ := p
            rw [deleteTF_sound fuel t k (t2, res) hd]
            match res with
            | .error e => rw [hd] at h; dsimp only at h; simp at h
            | .ok u =>
              rw [hd] at h
              dsimp only at h ⊢
              exact ih t2 tf h
        · simp only [Bool.not_eq_true] at hc
          simp only [hc, Bool.false_eq_true, if_false] at h
          exact absurd h (by simp)

theorem insertAllF_sound (fuel : Nat) :
    ∀ (xs : List α) (t : BTree α κ) (r : Except Err (BTree α κ)),
    insertAllF fuel t xs = some r → insertAll t xs = r := by
  intro xs
  induction xs with
  | nil =>
    intro t r h
    simp only [insertAllF, Option.some.injEq] at h
    simp only [insertAll, List.foldlM_nil, ← h]
    rfl
  | cons x rest ih =>
    intro t r h
    simp only [insertAllF] at h
    cases hi : insertTF fuel t x with
    | none => rw [hi] at h; simp at h
    | some m =>
      have hins := insertTF_sound fuel t x m hi
      match m with
      | .error e =>
        rw [hi] at h
        dsimp only at h
        simp only [Option.some.injEq] at h
        simp only [insertAll, List.foldlM_cons, hins, ← h]
        rfl
      | .ok t2 =>
        rw [hi] at h
        dsimp only at h
        have h2 := ih t2 r h
        show insertAll t (x :: rest) = r
        rw [insertAll, List.foldlM_cons, hins]
        exact h2

theorem deleteAllF_sound (fuel : Nat) :
    ∀ (ks : List κ) (t : BTree α κ) (r : Option (BTree α κ)),
    deleteAllF fuel t ks = some r → deleteAll t ks = r := by
  intro ks
  induction ks with
  | nil =>
    intro t r h
    simp only [deleteAllF, Option.some.injEq] at h
    simp only [deleteAll, ← h]
  | cons k rest ih =>
    intro t r h
    simp only [deleteAllF] at h
    simp only [deleteAll]
    cases hd : deleteTF fuel t k with
    | none => rw [hd] at h; simp at h
    | some p =>
      obtain ⟨t2, res⟩ := p
      have hdel : BTree.delete_by_key t k = (t2, res) := deleteTF_sound fuel t k (t2, res) hd
      rw [hdel]
      match res with
      | .error e =>
        rw [hd] at h
        dsimp only at h ⊢
        simp only [Option.some.injEq] at h
        rw [← h]
      | .ok u =>
        rw [hd] at h
        dsimp only at h ⊢
        exact ih t2 r h

set_option maxHeartbeats 4000000 in
/-- C1 (refuted): `mkBTree 4` has valid occupancy bounds (`maxsize ≥ 3`,
`minsize > 0`); the 92-operation sequence `c1Ops` completes with every
operation succeeding and every delete targeting a key present at the time,
yet in-order iteration of the resulting tree does not yield its keys in
non-decreasing order. -/
theorem c1_order_invariant_violated :
    3 ≤ (mkBTree 4 (fun x : Int => x)).maxsize ∧
    0 < (mkBTree 4 (fun x : Int => x)).minsize ∧
    applyOps (mkBTree 4 (fun x : Int => x)) c1Ops = some c1Final ∧
    ¬ List.Sorted (fun a b => a ≤ b) (c1Final.toList.map c1Final.keyfunc) := by
  refine ⟨by decide, by decide,
    applyOpsF_sound 99 c1Ops (mkBTree 4 (fun x => x)) c1Final rfl, ?_⟩
  have hl : c1Final.root.toList =
      [1, 1, 1, 1, 1, 1, 1, 1, 1, 1, 1, 2, 2, 2, 2, 2, 2, 2, 9, 2, 2, 3, 9, 9, 9] :=
    toListF_sound 99 c1Final.root _ rfl
  simp only [BTree.toList, hl]
  decide

set_option maxHeartbeats 1600000 in
/-- C2 (refuted): the 25-operation sequence `c2Ops` (21 inserts, then 4
deletes of present keys, each completing normally) leaves a root with 4 items
but 6 children, so its child count is neither 0 nor `items.length + 1`, and
the program's own `validate` rejects the resulting tree. -/
theorem c2_occupancy_invariant_violated :
    applyOps (mkBTree 4 (fun x : Int => x)) c2Ops = some c2Final ∧
    c2Final.root.items.length = 4 ∧
    c2Final.root.children.length = 6 ∧
    c2Final.root.children.length ≠ 0 ∧
    c2Final.root.children.length ≠ c2Final.root.items.length + 1 ∧
    c2Final.validate = .error .sizeValidationError := by
  refine ⟨applyOpsF_sound 99 c2Ops (mkBTree 4 (fun x => x)) c2Final rfl,
    rfl, rfl, by decide, by decide, ?_⟩
  have hs : _val_size c2Final.minsize c2Final.maxsize c2Final.root true = false := by
    show _val_size 2 4
      (BNode.mk [2, 2, 2, 2]
        [.mk [0, 2] [], .mk [2, 2] [], .mk [2, 2] [], .mk [2, 2] [], .mk [2, 2] [],
         .mk [2, 2] []]) true = false
    rw [_val_size]
    rfl
  rw [BTree.validate, hs]
  rfl

set_option maxHeartbeats 1600000 in
/-- C7 (refuted): inserting the 21 items of `c7Inserts` into an empty tree
succeeds, and `c7Deletes` is a permutation of that insertion order; yet the
first 18 deletes already leave a completely empty tree (three items are
silently lost along the way), and the 19th delete then raises, so deleting
all N inserted items neither completes nor ends on the empty tree. -/
theorem c7_round_trip_violated :
    List.Perm c7Deletes c7Inserts ∧
    insertAll (mkBTree 4 (fun x : Int => x)) c7Inserts = .ok c7AfterInserts ∧
    deleteAll c7AfterInserts (c7Deletes.take 18) =
      some { root := .mk [] [], maxsize := 4, minsize := 2, keyfunc := fun x => x } ∧
    deleteAll c7AfterInserts c7Deletes = none := by
  refine ⟨by decide,
    insertAllF_sound 99 c7Inserts (mkBTree 4 (fun x => x)) _ rfl,
    deleteAllF_sound 99 (c7Deletes.take 18) c7AfterInserts _ rfl,
    deleteAllF_sound 99 c7Deletes c7AfterInserts none rfl⟩

end PyBTree
